import Mathlib

/-!
Shallow embedding of the annotation search/pagination engine in
src/src/search/background/annots-list.ts. The Dexie store is modelled as a
record of lists (list order stands for index order); asynchronous store
reads become pure functions of the store value; JavaScript `Date.now()` and
the persisted installation time are threaded as explicit `now` and
`installTime` parameters; unbounded `while`/`do-while` loops take explicit
fuel and return `none` when the fuel runs out; thrown JavaScript errors are
`Except.error` values.
-/

namespace Memex

/-- Milliseconds per calendar day, the unit of all moment day arithmetic.
The model works in UTC, so `startOf day` truncates to a multiple of this. -/
def msPerDay : Nat := 86400000

/-- Start of the calendar day containing millisecond timestamp `t`
(moment startOf day). -/
def startOfDay (t : Nat) : Nat := t - t % msPerDay

/-- End of the calendar day containing `t` (moment endOf day). -/
def endOfDay (t : Nat) : Nat := startOfDay t + msPerDay - 1

/-- JavaScript truthiness of an optional numeric field: `undefined` and `0`
are falsy. -/
def optTruthy : Option Nat → Bool
  | none => false
  | some n => decide (n ≠ 0)

/-- JavaScript `x || d` on an optional numeric field: keep `x` when truthy,
otherwise the default `d`. -/
def jsOr (x : Option Nat) (d : Nat) : Nat :=
  if optTruthy x then x.getD 0 else d

/-- JavaScript `[...new Set(l)]`: remove duplicates keeping first
occurrences in order. -/
def jsDedup {α : Type} [DecidableEq α] (l : List α) : List α :=
  l.foldl (fun acc x => if x ∈ acc then acc else acc ++ [x]) []

/-- An annotation record of the annotations table. The primary key is
`url`; `pageUrl` names the owning page; `lastEdited` is an epoch-millisecond
timestamp; the two term lists are the indexed tokenised text fields
`_body_terms` and `_comment_terms`. -/
structure Annotation where
  url : String
  pageUrl : String
  lastEdited : Nat
  bodyTerms : List String
  commentTerms : List String
deriving DecidableEq

/-- The query descriptor AnnotSearchParams. Optional scalar fields are
`Option`; optional array fields use `[]` for the absent value, since the
source only ever tests them with `arr && arr.length`, which cannot tell
`undefined` from `[]`. -/
structure SearchParams where
  url : Option String := none
  termsInc : List String := []
  includeHighlights : Bool := false
  includeNotes : Bool := false
  startDate : Option Nat := none
  endDate : Option Nat := none
  bookmarksOnly : Bool := false
  tagsInc : List String := []
  tagsExc : List String := []
  collections : List String := []
  limit : Option Nat := none
  skip : Option Nat := none
deriving DecidableEq

/-- The Dexie-backed store contents read by the plugin. Each list models
one table in its index order: `annots` the annotations table,
`bookmarks` the primary keys (annotation urls) of the bookmarks table,
`tags` the (name, annotation url) primary keys of the tags table,
`lists` the (name, id) rows of the custom lists table, and `listEntries`
the (list id, annotation url) primary keys of the list entries table. -/
structure StoreState where
  annots : List Annotation
  bookmarks : List String
  tags : List (String × String)
  lists : List (String × Nat)
  listEntries : List (Nat × String)
deriving DecidableEq

/-- Lookup in a JavaScript `Map` modelled as an insertion-ordered
association list: value of the first entry with key `k`, or default `d`. -/
def mapGetD {κ β : Type} [DecidableEq κ] (m : List (κ × β)) (k : κ) (d : β) : β :=
  ((m.find? (fun e => decide (e.1 = k))).map (fun e => e.2)).getD d

/-- JavaScript `Map.set`: replace the value in place when the key exists,
otherwise append a new entry at the end. -/
def mapSet {κ β : Type} [DecidableEq κ] (m : List (κ × β)) (k : κ) (v : β) : List (κ × β) :=
  if m.any (fun e => decide (e.1 = k)) then
    m.map (fun e => if e.1 = k then (k, v) else e)
  else m ++ [(k, v)]

/-- One `<day, page annotations>` level of the clustered result maps. -/
abbrev PageMap : Type := List (String × List Annotation)

/-- The day-clustered result map: day timestamp to page map, in insertion
order. -/
abbrev DayMap : Type := List (Nat × PageMap)

/-- The error message thrown by listWithUrl when no page url is given. -/
def urlError : String := "URL must be supplied to list annotations."

/-- `listWithUrl`: the annotations of the page `params.url`, optionally
restricted to the `[startDate || 0, endDate || Date.now()]` window; `none`
models the thrown error when no url is supplied. -/
def listWithUrl (store : StoreState) (p : SearchParams) (now : Nat) : Option (List Annotation) :=
  match p.url with
  | none => none
  | some url =>
    let coll := store.annots.filter (fun a => decide (a.pageUrl = url))
    if optTruthy p.startDate || optTruthy p.endDate then
      let startDate := jsOr p.startDate 0
      let endDate := jsOr p.endDate now
      some (coll.filter (fun a => decide (startDate ≤ a.lastEdited ∧ a.lastEdited ≤ endDate)))
    else some coll

/-- `filterByBookmarks`: primary keys of the bookmarks table whose url is
among the candidates (an anyOf lookup, returned in store index order). -/
def filterByBookmarks (store : StoreState) (urls : List String) : List String :=
  store.bookmarks.filter (fun u => decide (u ∈ urls))

/-- `filterByTags`: fetch the (name, url) tag rows of the candidate urls,
drop rows named in `tagsExc`, then (when `tagsInc` is non-empty) keep only
rows named in `tagsInc`; a candidate survives when one of its tag rows
survives. -/
def filterByTags (store : StoreState) (urls : List String) (p : SearchParams) : List String :=
  let tags0 := store.tags.filter (fun t => decide (t.2 ∈ urls))
  let tags1 := if p.tagsExc ≠ [] then tags0.filter (fun t => decide (t.1 ∉ p.tagsExc)) else tags0
  let tags2 := if p.tagsInc ≠ [] then tags1.filter (fun t => decide (t.1 ∈ p.tagsInc)) else tags1
  let tagUrls := tags2.map (fun t => t.2)
  urls.filter (fun u => decide (u ∈ tagUrls))

/-- `filterByCollections`: resolve the requested collection names to list
ids, fetch the (list id, url) entry rows of the candidate urls, and keep a
candidate when it has an entry row in one of the resolved lists. -/
def filterByCollections (store : StoreState) (urls : List String) (p : SearchParams) : List String :=
  let listIds := (store.lists.filter (fun e => decide (e.1 ∈ p.collections))).map (fun e => e.2)
  let entries := store.listEntries.filter (fun e => decide (e.2 ∈ urls))
  let entryUrls := (entries.filter (fun e => decide (e.1 ∈ listIds))).map (fun e => e.2)
  urls.filter (fun u => decide (u ∈ entryUrls))

/-- `mapUrlsToAnnots`: resolve keys to records through a url-keyed map
built from the anyOf store lookup, preserving the input order; an
unresolved key yields `none` (a hole) at its position. -/
def mapUrlsToAnnots (store : StoreState) (urls : List String) : List (Option Annotation) :=
  let found := store.annots.filter (fun a => decide (a.url ∈ urls))
  let annotUrlMap := found.foldl (fun m a => mapSet m a.url a) []
  urls.map (fun url => (annotUrlMap.find? (fun e => decide (e.1 = url))).map (fun e => e.2))

/-- `filterResults`: the three facet stages in their fixed order, each
applied only when its triggering parameter is present. -/
def filterResults (store : StoreState) (results : List String) (p : SearchParams) : List String :=
  let r1 := if p.bookmarksOnly then filterByBookmarks store results else results
  let r2 := if p.tagsInc ≠ [] ∨ p.tagsExc ≠ [] then filterByTags store r1 p else r1
  if p.collections ≠ [] then filterByCollections store r2 p else r2

/-- The moment 2018-06-01 floor used by calcHardLowerTimeBound, in epoch
milliseconds (UTC midnight). -/
def annotsReleaseTime : Nat := 1527811200000

/-- `calcHardLowerTimeBound`: the later of (`startDate` when truthy, else
the 2018-06-01 floor) and the installation time read from extension
storage. -/
def calcHardLowerTimeBound (p : SearchParams) (installTime : Nat) : Nat :=
  let annotsRelease := jsOr p.startDate annotsReleaseTime
  if installTime < annotsRelease then annotsRelease else installTime

/-- `mergeResults(a, b)`: merge day map `b` into day map `a`; for a day in
both, page buckets are merged with existing annotations first and the new
ones appended. -/
def mergeResults (a b : DayMap) : DayMap :=
  b.foldl (fun acc de =>
    let pagesA := mapGetD acc de.1 []
    let pagesA2 := de.2.foldl (fun pm pe => mapSet pm pe.1 (mapGetD pm pe.1 [] ++ pe.2)) pagesA
    mapSet acc de.1 pagesA2) a

/-- Insert one annotation into a list kept in descending lastEdited order,
after the existing entries that are at least as recent (the stable
insertion step of the descending sort). -/
def insertByEditDesc (a : Annotation) : List Annotation → List Annotation
  | [] => [a]
  | b :: l => if a.lastEdited ≤ b.lastEdited then b :: insertByEditDesc a l else a :: b :: l

/-- The `annots.sort((a, b) => b.lastEdited - a.lastEdited)` stable
descending sort, as a left-to-right stable insertion sort. -/
def sortByEditDesc (annots : List Annotation) : List Annotation :=
  annots.foldl (fun acc a => insertByEditDesc a acc) []

/-- The common `existing = m.get(k) || []; m.set(k, [...existing, x])`
grouping loop of both clustering functions, folding over the input. -/
def groupLoop {κ : Type} [DecidableEq κ] (key : Annotation → κ) :
    List (κ × List Annotation) → List Annotation → List (κ × List Annotation)
  | m, [] => m
  | m, a :: l => groupLoop key (mapSet m (key a) (mapGetD m (key a) [] ++ [a])) l

/-- `clusterAnnotsByDays`: sort descending by lastEdited, then group into
an insertion-ordered map keyed by the start-of-day timestamp. -/
def clusterAnnotsByDays (annots : List Annotation) : List (Nat × List Annotation) :=
  groupLoop (fun a => startOfDay a.lastEdited) [] (sortByEditDesc annots)

/-- `clusterAnnotsByPage`: refine each day bucket of clusterAnnotsByDays
into an insertion-ordered map keyed by the owning page url. -/
def clusterAnnotsByPage (annots : List Annotation) : DayMap :=
  (clusterAnnotsByDays annots).map (fun de => (de.1, groupLoop (fun a => a.pageUrl) [] de.2))

/-- `queryAnnotsByDay`: range query on lastEdited, inclusive at both ends,
reversed to descending order. -/
def queryAnnotsByDay (store : StoreState) (startDate endDate : Nat) : List Annotation :=
  sortByEditDesc (store.annots.filter
    (fun a => decide (startDate ≤ a.lastEdited ∧ a.lastEdited ≤ endDate)))

/-- The two indexed text fields a term query can target. -/
inductive TermField : Type
  | body
  | comment
deriving DecidableEq

/-- The term list of an annotation for a given field (`_body_terms` or
`_comment_terms`). -/
def fieldTerms : TermField → Annotation → List String
  | TermField.body, a => a.bodyTerms
  | TermField.comment, a => a.commentTerms

/-- `queryTermsField`: equality lookup of one term against one multi-entry
field index, optionally filtered to the
`[startDate || 0, endDate || Date.now()]` window; returns primary keys. -/
def queryTermsField (store : StoreState) (field : TermField) (term : String)
    (p : SearchParams) (now : Nat) : List String :=
  let coll := store.annots.filter (fun a => decide (term ∈ fieldTerms field a))
  let coll := if optTruthy p.startDate || optTruthy p.endDate then
      coll.filter (fun a =>
        decide (jsOr p.startDate 0 ≤ a.lastEdited ∧ a.lastEdited ≤ jsOr p.endDate now))
    else coll
  coll.map (fun a => a.url)

/-- The enabled field list `fields` built by lookupTerms from the two
include toggles. -/
def enabledFields (p : SearchParams) : List TermField :=
  (if p.includeHighlights then [TermField.body] else []) ++
    (if p.includeNotes then [TermField.comment] else [])

/-- The message of the TypeError thrown by `Array.prototype.reduce` on an
empty array with no initial value. -/
def reduceError : String := "Reduce of empty array with no initial value"

/-- JavaScript `arr.reduce(f)` with no initial value: throws on an empty
array. -/
def jsReduce {α : Type} (f : α → α → α) : List α → Except String α
  | [] => Except.error reduceError
  | x :: xs => Except.ok (xs.foldl f x)

/-- The per-term key set of lookupTerms: union over the enabled fields of
the equality lookups for this term, deduplicated. -/
def termUnion (store : StoreState) (p : SearchParams) (now : Nat) (term : String) : List String :=
  jsDedup (((enabledFields p).map (fun f => queryTermsField store f term p now)).flatten)

/-- `lookupTerms`: build the per-term map (keyed by term, so duplicate
terms collapse to their first occurrence), then intersect the per-term key
sets with a reduce that has no initial value. -/
def lookupTerms (store : StoreState) (p : SearchParams) (now : Nat) : Except String (List String) :=
  jsReduce (fun a b => a.filter (fun u => decide (u ∈ b)))
    ((jsDedup p.termsInc).map (termUnion store p now))

/-- The JavaScript comparison `n < params.limit`: false when the limit is
`undefined` (NaN comparisons are false). -/
def ltLimit (p : SearchParams) (n : Nat) : Bool :=
  match p.limit with
  | some l => decide (n < l)
  | none => false

/-- The JavaScript comparison `n > params.limit`: false when the limit is
`undefined`. -/
def gtLimit (p : SearchParams) (n : Nat) : Bool :=
  match p.limit with
  | some l => decide (l < n)
  | none => false

/-- The JavaScript strict comparison `n !== limit`: true when the limit is
`undefined`. -/
def neLimit (p : SearchParams) (n : Nat) : Bool :=
  match p.limit with
  | some l => decide (n ≠ l)
  | none => true

/-- The JavaScript comparison `n > skip`: false when skip is
`undefined`. -/
def gtSkip (p : SearchParams) (n : Nat) : Bool :=
  match p.skip with
  | some s => decide (s < n)
  | none => false

/-- JavaScript `arr.slice(start, stop)` for in-range indices. -/
def jsSlice {α : Type} (l : List α) (start stop : Nat) : List α :=
  (l.drop start).take (stop - start)

/-- The message of the TypeError thrown when the forEach body of
paginateAnnotsResults dereferences an unresolved (undefined) record. -/
def holeError : String := "TypeError: annot is undefined"

/-- All entries of a lookup result, or `none` if any of them is a hole. -/
def allSome {α : Type} : List (Option α) → Option (List α)
  | [] => some []
  | none :: _ => none
  | some a :: l => (allSome l).map (fun r => a :: r)

/-- The while loop of `paginateAnnotsResults`, with explicit fuel. State:
the internal skip offset, the accumulated page map and the seen page set
(an insertion-ordered list). Each raw slice is resolved to records and
folded through the forEach body; a hole in the slice throws. -/
def paginateLoop (store : StoreState) (results : List String) (p : SearchParams)
    (internalPageSize : Nat) :
    Nat → Nat → PageMap → List String → Option (Except String PageMap)
  | 0, _, _, _ => none
  | Nat.succ fuel, internalSkip, annotsByPage, seenPages =>
    if ltLimit p annotsByPage.length then
      let resSlice := jsSlice results internalSkip (internalSkip + internalPageSize)
      if resSlice.isEmpty then some (Except.ok annotsByPage)
      else
        match allSome (mapUrlsToAnnots store resSlice) with
        | none => some (Except.error holeError)
        | some annots =>
          let st := annots.foldl (fun st annot =>
            let seen := if annot.pageUrl ∈ st.2 then st.2 else st.2 ++ [annot.pageUrl]
            let prev := mapGetD st.1 annot.pageUrl []
            let m := if neLimit p st.1.length && gtSkip p seen.length then
                mapSet st.1 annot.pageUrl (prev ++ [annot])
              else st.1
            (m, seen)) (annotsByPage, seenPages)
          paginateLoop store results p internalPageSize fuel
            (internalSkip + internalPageSize) st.1 st.2
    else some (Except.ok annotsByPage)

/-- `paginateAnnotsResults`: page-map pagination over an ordered key list.
With an `undefined` limit the loop condition is immediately false, so the
internal page size (NaN in JavaScript) is never consulted; it is defaulted
to 0 here. -/
def paginateAnnotsResults (fuel : Nat) (store : StoreState) (results : List String)
    (p : SearchParams) : Option (Except String PageMap) :=
  let internalPageSize := p.limit.getD 0 * 2
  paginateLoop store results p internalPageSize fuel 0 [] []

/-- `searchAnnots`: term lookup, facet filtering, then page-map
pagination. -/
def searchAnnots (fuel : Nat) (store : StoreState) (p : SearchParams) (now : Nat) :
    Option (Except String PageMap) :=
  match lookupTerms store p now with
  | Except.error e => some (Except.error e)
  | Except.ok termsSearchResults =>
    let filteredResults := filterResults store termsSearchResults p
    paginateAnnotsResults fuel store filteredResults p

/-- The initial date cursor of listAnnotsByDay: `endDate` when truthy, else
the end of the current day. -/
def initialDayCursor (p : SearchParams) (now : Nat) : Nat :=
  if optTruthy p.endDate then p.endDate.getD 0 else endOfDay now

/-- One cursor move of the listAnnotsByDay loop: clamp to the hard lower
limit when fewer than `limit` whole days remain before it (the moment diff
in days truncates), else go back `limit` days. -/
def dayCursorStep (p : SearchParams) (hardLowerLimit dateCursor : Nat) : Nat :=
  if ltLimit p ((dateCursor - hardLowerLimit) / msPerDay) then hardLowerLimit
  else dateCursor - p.limit.getD 0 * msPerDay

/-- The facet-filtered annotations of one window
`[dayCursorStep, dateCursor]` of the listAnnotsByDay loop. -/
def dayWindowAnnots (store : StoreState) (p : SearchParams)
    (hardLowerLimit dateCursor : Nat) : List Annotation :=
  let annots := queryAnnotsByDay store (dayCursorStep p hardLowerLimit dateCursor) dateCursor
  let filteredPks := filterResults store (annots.map (fun a => a.url)) p
  annots.filter (fun a => decide (a.url ∈ filteredPks))

/-- The while loop of `listAnnotsByDay`, with explicit fuel. Alongside the
cursor and the accumulated day map, it records every issued range query as
a (lower, upper) pair, so that the bound property can be stated. A loop
iteration moves the cursor with dayCursorStep, then queries the window
(upper bound the old cursor, lower bound the new one), filters, clusters
and merges. -/
def byDayLoop (store : StoreState) (p : SearchParams) (hardLowerLimit : Nat) :
    Nat → Nat → DayMap → List (Nat × Nat) → Option (DayMap × List (Nat × Nat))
  | 0, _, _, _ => none
  | Nat.succ fuel, dateCursor, results, queries =>
    if ltLimit p results.length && decide (hardLowerLimit < dateCursor) then
      let dateCursor2 := dayCursorStep p hardLowerLimit dateCursor
      let annots2 := dayWindowAnnots store p hardLowerLimit dateCursor
      let results2 := mergeResults results (clusterAnnotsByPage annots2)
      byDayLoop store p hardLowerLimit fuel dateCursor2 results2
        (queries ++ [(dateCursor2, dateCursor)])
    else some (results, queries)

/-- The final excess cut of listAnnotsByDay:
`slice(params.skip, params.skip + params.limit)` over the day entries; with
an `undefined` skip the slice end is NaN and the result is empty. -/
def daySlice (p : SearchParams) (l : DayMap) : DayMap :=
  match p.skip, p.limit with
  | some s, some lim => jsSlice l s (s + lim)
  | _, _ => []

/-- `listAnnotsByDay`: backward day-window scan from the initial cursor
down to the hard lower time bound. Returns the day map together with the
trace of issued range queries. -/
def listAnnotsByDay (fuel : Nat) (store : StoreState) (p : SearchParams) (now installTime : Nat) :
    Option (DayMap × List (Nat × Nat)) :=
  let hardLowerLimit := calcHardLowerTimeBound p installTime
  match byDayLoop store p hardLowerLimit fuel (initialDayCursor p now) [] [] with
  | none => none
  | some (results, queries) =>
    let results2 := if gtLimit p results.length then daySlice p results else results
    some (results2, queries)

/-- The do-while loop of `listAnnotsByPage`, with explicit fuel. Each
iteration re-queries the page collection, takes the first `innerLimit`
primary keys, decides whether to continue from the raw batch size, filters
the batch with the facet filters and appends it to the accumulator. -/
def byPageLoop (store : StoreState) (p : SearchParams) (now : Nat) (innerLimit : Nat) :
    Nat → List String → Option (Except String (List String))
  | 0, _ => none
  | Nat.succ fuel, results =>
    match listWithUrl store p now with
    | none => some (Except.error urlError)
    | some coll =>
      let innerResults := (coll.take innerLimit).map (fun a => a.url)
      let continueLookup := decide (innerLimit ≤ innerResults.length)
      let innerResults2 := filterResults store innerResults p
      let results2 := results ++ innerResults2
      if continueLookup then byPageLoop store p now innerLimit fuel results2
      else some (Except.ok results2)

/-- `listAnnotsByPage`: the over-fetch loop followed by the excess cut
(`slice(skip, skip + limit)`, applied only when more than `limit` keys
accumulated) and record resolution. The destructuring defaults
`limit = 10`, `skip = 0` apply only to `undefined`. -/
def listAnnotsByPage (fuel : Nat) (store : StoreState) (p : SearchParams) (now : Nat)
    (innerLimitMultiplier : Nat) : Option (Except String (List (Option Annotation))) :=
  let limit := p.limit.getD 10
  let skip := p.skip.getD 0
  let innerLimit := limit * innerLimitMultiplier
  match byPageLoop store p now innerLimit fuel [] with
  | none => none
  | some (Except.error e) => some (Except.error e)
  | some (Except.ok results) =>
    let results2 := if limit < results.length then jsSlice results skip (skip + limit) else results
    some (Except.ok (mapUrlsToAnnots store results2))

deriving instance DecidableEq for Except

/-- Membership of the dedup fold, for any accumulator. -/
theorem mem_dedupFold {α : Type} [DecidableEq α] (l acc : List α) (x : α) :
    x ∈ l.foldl (fun acc x => if x ∈ acc then acc else acc ++ [x]) acc ↔ x ∈ acc ∨ x ∈ l := by
  induction l generalizing acc with
  | nil => simp
  | cons a l ih =>
    simp only [List.foldl_cons, ih, List.mem_cons]
    by_cases h : a ∈ acc
    · simp only [if_pos h]
      constructor
      · tauto
      · rintro (h1 | rfl | h1) <;> tauto
    · simp only [if_neg h, List.mem_append, List.mem_singleton]
      tauto

/-- Membership of `jsDedup` is membership of the input. -/
theorem mem_jsDedup {α : Type} [DecidableEq α] (l : List α) (x : α) :
    x ∈ jsDedup l ↔ x ∈ l := by
  simpa [jsDedup] using mem_dedupFold l [] x

/-- The dedup fold produces no duplicates. -/
theorem nodup_dedupFold {α : Type} [DecidableEq α] (l acc : List α) (h : acc.Nodup) :
    (l.foldl (fun acc x => if x ∈ acc then acc else acc ++ [x]) acc).Nodup := by
  induction l generalizing acc with
  | nil => exact h
  | cons a l ih =>
    simp only [List.foldl_cons]
    apply ih
    by_cases ha : a ∈ acc
    · simpa [ha] using h
    · simp [ha, List.nodup_append, h]

/-- `jsDedup` produces no duplicates. -/
theorem nodup_jsDedup {α : Type} [DecidableEq α] (l : List α) : (jsDedup l).Nodup :=
  nodup_dedupFold l [] List.nodup_nil

/-- `jsDedup` of a snoc: the new element is appended only when new. -/
theorem jsDedup_snoc {α : Type} [DecidableEq α] (l : List α) (x : α) :
    jsDedup (l ++ [x]) = if x ∈ l then jsDedup l else jsDedup l ++ [x] := by
  unfold jsDedup
  rw [List.foldl_append]
  simp only [List.foldl_cons, List.foldl_nil]
  exact if_congr (by simpa [jsDedup] using mem_dedupFold l [] x) rfl rfl

/-- `find?` on a list of key-value pairs built from a key list: the first
hit is the queried key with its value. -/
theorem find?_pairs {κ β : Type} [DecidableEq κ] (g : κ → β) (ks : List κ) (k : κ) :
    (ks.map (fun k => (k, g k))).find? (fun e => decide (e.1 = k)) =
      if k ∈ ks then some (k, g k) else none := by
  induction ks with
  | nil => simp
  | cons a ks ih =>
    by_cases h : a = k
    · subst h
      simp [List.find?_cons_of_pos]
    · rw [List.map_cons, List.find?_cons_of_neg _ (by simpa using h), ih]
      simp [List.mem_cons, h, Ne.symm h]

/-- `any` on a list of key-value pairs built from a key list decides key
membership. -/
theorem any_pairs {κ β : Type} [DecidableEq κ] (g : κ → β) (ks : List κ) (k : κ) :
    (ks.map (fun k => (k, g k))).any (fun e => decide (e.1 = k)) = decide (k ∈ ks) := by
  induction ks with
  | nil => simp
  | cons a ks ih =>
    simp only [List.map_cons, List.any_cons, ih]
    by_cases h : a = k
    · subst h; simp
    · simp [h, Ne.symm h, List.mem_cons]

/-- Closed form of the grouping loop: one bucket per distinct key in first
occurrence order, each bucket holding the input elements with that key in
input order. -/
def keyBuckets {κ : Type} [DecidableEq κ] (key : Annotation → κ) (l : List Annotation) :
    List (κ × List Annotation) :=
  (jsDedup (l.map key)).map (fun k => (k, l.filter (fun a => decide (key a = k))))

/-- One step of the grouping loop, on the closed form. -/
theorem keyBuckets_step {κ : Type} [DecidableEq κ] (key : Annotation → κ)
    (p : List Annotation) (a : Annotation) :
    mapSet (keyBuckets key p) (key a) (mapGetD (keyBuckets key p) (key a) [] ++ [a]) =
      keyBuckets key (p ++ [a]) := by
  have hmapkey : (p ++ [a]).map key = p.map key ++ [key a] := by simp
  have hget : mapGetD (keyBuckets key p) (key a) [] =
      if key a ∈ p.map key then p.filter (fun x => decide (key x = key a)) else [] := by
    rw [mapGetD, keyBuckets, find?_pairs]
    by_cases h : key a ∈ p.map key
    · simp [h, mem_jsDedup]
    · simp [h, mem_jsDedup]
  have hany : (keyBuckets key p).any (fun e => decide (e.1 = key a)) =
      decide (key a ∈ p.map key) := by
    rw [keyBuckets, any_pairs]
    by_cases h : key a ∈ p.map key <;> simp [h, mem_jsDedup]
  by_cases h : key a ∈ p.map key
  · rw [mapSet, hany, hget, if_pos h, if_pos (by simpa using h)]
    rw [keyBuckets, keyBuckets, hmapkey, jsDedup_snoc, if_pos h, List.map_map]
    apply List.map_congr_left
    intro k hk
    rw [mem_jsDedup] at hk
    by_cases hka : k = key a
    · subst hka
      simp [List.filter_append]
    · have : ¬(key a = k) := fun hc => hka hc.symm
      simp [Function.comp, hka, Ne.symm hka, List.filter_append, this]
  · rw [mapSet, hany, hget, if_neg h, if_neg (by simpa using h)]
    rw [keyBuckets, keyBuckets, hmapkey, jsDedup_snoc, if_neg h, List.map_append]
    congr 1
    · apply List.map_congr_left
      intro k hk
      rw [mem_jsDedup] at hk
      have hka : ¬(key a = k) := fun hc => h (hc ▸ hk)
      simp [List.filter_append, hka]
    · have hnil : p.filter (fun x => decide (key x = key a)) = [] := by
        rw [List.filter_eq_nil_iff]
        intro x hx
        simp only [decide_eq_true_eq]
        intro hc
        exact h (hc ▸ List.mem_map_of_mem key hx)
      simp [List.filter_append, hnil]

/-- The grouping loop started from the closed form of a prefix computes the
closed form of the extended input. -/
theorem groupLoop_eq_keyBuckets_aux {κ : Type} [DecidableEq κ] (key : Annotation → κ)
    (l p : List Annotation) :
    groupLoop key (keyBuckets key p) l = keyBuckets key (p ++ l) := by
  induction l generalizing p with
  | nil => simp [groupLoop]
  | cons a l ih =>
    rw [groupLoop, keyBuckets_step, ih]
    simp

/-- The grouping loop computes the closed form. -/
theorem groupLoop_eq_keyBuckets {κ : Type} [DecidableEq κ] (key : Annotation → κ)
    (l : List Annotation) : groupLoop key [] l = keyBuckets key l := by
  have h0 : keyBuckets key [] = ([] : List (κ × List Annotation)) := rfl
  simpa using groupLoop_eq_keyBuckets_aux key l []

/-- The most-recent-first ordering relation on annotations. -/
abbrev editGe (x y : Annotation) : Prop := y.lastEdited ≤ x.lastEdited

/-- Membership after the insertion step of the descending sort. -/
theorem mem_insertByEditDesc (a x : Annotation) (l : List Annotation) :
    x ∈ insertByEditDesc a l ↔ x = a ∨ x ∈ l := by
  induction l with
  | nil => simp [insertByEditDesc]
  | cons b l ih =>
    rw [insertByEditDesc]
    by_cases h : a.lastEdited ≤ b.lastEdited
    · rw [if_pos h]
      simp only [List.mem_cons, ih]
      tauto
    · rw [if_neg h]
      simp only [List.mem_cons]

/-- The insertion step permutes the element onto the list. -/
theorem perm_insertByEditDesc (a : Annotation) (l : List Annotation) :
    List.Perm (insertByEditDesc a l) (a :: l) := by
  induction l with
  | nil => exact List.Perm.refl [a]
  | cons b l ih =>
    rw [insertByEditDesc]
    by_cases h : a.lastEdited ≤ b.lastEdited
    · rw [if_pos h]
      exact (ih.cons b).trans (List.Perm.swap a b l)
    · rw [if_neg h]

/-- The insertion step preserves descending sortedness. -/
theorem pairwise_insertByEditDesc (a : Annotation) (l : List Annotation)
    (h : l.Pairwise editGe) : (insertByEditDesc a l).Pairwise editGe := by
  induction l with
  | nil => simp [insertByEditDesc]
  | cons b l ih =>
    rw [List.pairwise_cons] at h
    obtain ⟨hb, hl⟩ := h
    rw [insertByEditDesc]
    by_cases hab : a.lastEdited ≤ b.lastEdited
    · rw [if_pos hab, List.pairwise_cons]
      refine ⟨?_, ih hl⟩
      intro x hx
      rcases (mem_insertByEditDesc a x l).mp hx with rfl | hx
      · exact hab
      · exact hb x hx
    · rw [if_neg hab, List.pairwise_cons]
      push_neg at hab
      refine ⟨?_, List.pairwise_cons.mpr ⟨hb, hl⟩⟩
      intro x hx
      rcases List.mem_cons.mp hx with rfl | hx
      · exact le_of_lt hab
      · exact le_trans (hb x hx) (le_of_lt hab)

/-- The sort fold permutes the accumulator and the input together. -/
theorem sortFold_perm (l acc : List Annotation) :
    List.Perm (l.foldl (fun acc a => insertByEditDesc a acc) acc) (acc ++ l) := by
  induction l generalizing acc with
  | nil => simp
  | cons a l ih =>
    simp only [List.foldl_cons]
    refine (ih _).trans ?_
    refine (((perm_insertByEditDesc a acc).append_right l).trans ?_)
    exact (List.perm_middle).symm

/-- The descending sort is a permutation of its input. -/
theorem sortByEditDesc_perm (l : List Annotation) : List.Perm (sortByEditDesc l) l := by
  simpa [sortByEditDesc] using sortFold_perm l []

/-- The descending sort is sorted most-recent-first. -/
theorem sortByEditDesc_pairwise (l : List Annotation) : (sortByEditDesc l).Pairwise editGe := by
  have aux : ∀ (l acc : List Annotation), acc.Pairwise editGe →
      (l.foldl (fun acc a => insertByEditDesc a acc) acc).Pairwise editGe := by
    intro l
    induction l with
    | nil => exact fun acc h => h
    | cons a l ih => exact fun acc h => ih _ (pairwise_insertByEditDesc a acc h)
  exact aux l [] (by simp)

/-- Sum of a constant-zero map. -/
theorem sum_map_zero {κ : Type} (ks : List κ) : (ks.map (fun _ => (0 : Nat))).sum = 0 := by
  induction ks with
  | nil => rfl
  | cons k ks ih => simp [ih]

/-- Sums of pointwise sums split. -/
theorem sum_map_add {κ : Type} (ks : List κ) (f g : κ → Nat) :
    (ks.map (fun k => f k + g k)).sum = (ks.map f).sum + (ks.map g).sum := by
  induction ks with
  | nil => rfl
  | cons k ks ih =>
    simp only [List.map_cons, List.sum_cons, ih]
    omega

/-- An indicator sums to zero when the key is absent. -/
theorem sum_map_indicator_zero {κ : Type} [DecidableEq κ] (ks : List κ) (k0 : κ)
    (hk : k0 ∉ ks) : (ks.map (fun k => if k0 = k then 1 else 0)).sum = 0 := by
  induction ks with
  | nil => rfl
  | cons k ks ih =>
    have h1 : k0 ≠ k := fun hc => hk (hc ▸ List.mem_cons_self k ks)
    have h2 : k0 ∉ ks := fun hc => hk (List.mem_cons_of_mem k hc)
    simp [h1, ih h2]

/-- An indicator over a duplicate-free key list containing the key sums to
one. -/
theorem sum_map_indicator {κ : Type} [DecidableEq κ] (ks : List κ) (k0 : κ)
    (hnd : ks.Nodup) (hk : k0 ∈ ks) :
    (ks.map (fun k => if k0 = k then 1 else 0)).sum = 1 := by
  induction ks with
  | nil => cases hk
  | cons k ks ih =>
    rw [List.nodup_cons] at hnd
    rcases List.mem_cons.mp hk with rfl | hk2
    · have hzero : (ks.map (fun k => if k0 = k then 1 else 0)).sum = 0 :=
        sum_map_indicator_zero ks k0 hnd.1
      simp [hzero]
    · have hne : k0 ≠ k := fun hc => hnd.1 (hc ▸ hk2)
      simp [hne, ih hnd.2 hk2]

/-- Bucketing by key over a covering duplicate-free key list preserves the
total element count. -/
theorem sum_filter_lengths {κ : Type} [DecidableEq κ] (key : Annotation → κ)
    (l : List Annotation) (ks : List κ) (hnd : ks.Nodup) (hcov : ∀ a ∈ l, key a ∈ ks) :
    (ks.map (fun k => (l.filter (fun x => decide (key x = k))).length)).sum = l.length := by
  induction l with
  | nil =>
    have h : ks.map (fun k => (([] : List Annotation).filter
        (fun x => decide (key x = k))).length) = ks.map (fun _ => 0) := by
      simp
    rw [h, sum_map_zero, List.length_nil]
  | cons a l ih =>
    have hcov2 : ∀ x ∈ l, key x ∈ ks := fun x hx => hcov x (List.mem_cons_of_mem a hx)
    have h2 : ks.map (fun k => ((a :: l).filter (fun x => decide (key x = k))).length)
        = ks.map (fun k => (if key a = k then 1 else 0)
            + (l.filter (fun x => decide (key x = k))).length) := by
      apply List.map_congr_left
      intro k _
      rw [List.filter_cons]
      by_cases h : key a = k <;> simp [h, Nat.add_comm]
    rw [h2, sum_map_add, sum_map_indicator ks (key a) hnd (hcov a (List.mem_cons_self a l)),
      ih hcov2, List.length_cons]
    omega

/-- Day clustering in closed form: buckets of the descending-sorted input
keyed by start of day. -/
theorem clusterAnnotsByDays_eq (annots : List Annotation) :
    clusterAnnotsByDays annots =
      keyBuckets (fun a => startOfDay a.lastEdited) (sortByEditDesc annots) := by
  rw [clusterAnnotsByDays, groupLoop_eq_keyBuckets]

/-- Day and page clustering in closed form. -/
theorem clusterAnnotsByPage_eq (annots : List Annotation) :
    clusterAnnotsByPage annots =
      (keyBuckets (fun a => startOfDay a.lastEdited) (sortByEditDesc annots)).map
        (fun de => (de.1, keyBuckets (fun a => a.pageUrl) de.2)) := by
  rw [clusterAnnotsByPage, clusterAnnotsByDays_eq]
  apply List.map_congr_left
  intro de _
  rw [groupLoop_eq_keyBuckets]

/-- Membership in the closed-form buckets. -/
theorem mem_keyBuckets {κ : Type} [DecidableEq κ] (key : Annotation → κ)
    (l : List Annotation) (e : κ × List Annotation) :
    e ∈ keyBuckets key l ↔
      e.1 ∈ l.map key ∧ e.2 = l.filter (fun a => decide (key a = e.1)) := by
  rcases e with ⟨k, v⟩
  rw [keyBuckets]
  constructor
  · intro h
    obtain ⟨k2, hk2, heq⟩ := List.mem_map.mp h
    simp only [Prod.mk.injEq] at heq
    obtain ⟨h3, h4⟩ := heq
    subst h3
    subst h4
    exact ⟨(mem_jsDedup _ _).mp hk2, rfl⟩
  · rintro ⟨h1, h2⟩
    simp only at h1 h2
    exact List.mem_map.mpr ⟨k, (mem_jsDedup _ _).mpr h1, by rw [h2]⟩

/-- The bucket lengths of the closed form sum to the input length. -/
theorem sum_keyBuckets_lengths {κ : Type} [DecidableEq κ] (key : Annotation → κ)
    (l : List Annotation) :
    ((keyBuckets key l).map (fun e => e.2.length)).sum = l.length := by
  rw [keyBuckets, List.map_map]
  have h := sum_filter_lengths key l (jsDedup (l.map key)) (nodup_jsDedup _)
    (fun a ha => (mem_jsDedup _ _).mpr (List.mem_map_of_mem key ha))
  simpa [Function.comp] using h

/-- Start of day is day aligned. -/
theorem startOfDay_mod (t : Nat) : startOfDay t % msPerDay = 0 := by
  rw [startOfDay]
  have h := Nat.div_add_mod t msPerDay
  have h2 : t - t % msPerDay = msPerDay * (t / msPerDay) := by omega
  rw [h2]
  exact Nat.mul_mod_right _ _

/-- The total annotation count across all (day, page) buckets equals the
input length. -/
theorem sum_cluster_lengths (annots : List Annotation) :
    ((clusterAnnotsByPage annots).map (fun de => (de.2.map (fun pe => pe.2.length)).sum)).sum
      = annots.length := by
  rw [clusterAnnotsByPage_eq, List.map_map]
  have h1 : ((keyBuckets (fun a => startOfDay a.lastEdited) (sortByEditDesc annots)).map
      ((fun de : Nat × PageMap => (de.2.map (fun pe => pe.2.length)).sum) ∘
        (fun de => (de.1, keyBuckets (fun a => a.pageUrl) de.2)))) =
      (keyBuckets (fun a => startOfDay a.lastEdited) (sortByEditDesc annots)).map
        (fun de => de.2.length) := by
    apply List.map_congr_left
    intro de _
    simp only [Function.comp]
    exact sum_keyBuckets_lengths (fun a => a.pageUrl) de.2
  rw [h1, sum_keyBuckets_lengths, (sortByEditDesc_perm annots).length_eq]

/-- C6: every input annotation lands in exactly one (day, page) bucket of
clusterAnnotsByPage (bucket totals sum to the input length, every bucket
member belongs to exactly the bucket keyed by its own start of day and its
own page, and every input annotation occurs in its bucket); every day key
is start-of-day aligned; and within each (day, page) bucket annotations are
ordered most-recent-edit-first, because the input is sorted descending by
lastEdited before bucketing. -/
theorem clusterAnnotsByPage_invariants (annots : List Annotation) :
    (((clusterAnnotsByPage annots).map
        (fun de => (de.2.map (fun pe => pe.2.length)).sum)).sum = annots.length)
    ∧ (∀ de ∈ clusterAnnotsByPage annots, de.1 % msPerDay = 0)
    ∧ (∀ de ∈ clusterAnnotsByPage annots, ∀ pe ∈ de.2, ∀ x ∈ pe.2,
        startOfDay x.lastEdited = de.1 ∧ x.pageUrl = pe.1)
    ∧ (∀ x ∈ annots, ∃ pm, (startOfDay x.lastEdited, pm) ∈ clusterAnnotsByPage annots
        ∧ ∃ l, (x.pageUrl, l) ∈ pm ∧ x ∈ l)
    ∧ (∀ de ∈ clusterAnnotsByPage annots, ∀ pe ∈ de.2, pe.2.Pairwise editGe) := by
  have hcl := clusterAnnotsByPage_eq annots
  refine ⟨sum_cluster_lengths annots, ?_, ?_, ?_, ?_⟩
  · intro de hde
    rw [hcl] at hde
    obtain ⟨e, he, heq⟩ := List.mem_map.mp hde
    obtain ⟨h1, _⟩ := (mem_keyBuckets _ _ _).mp he
    obtain ⟨a, _, ha⟩ := List.mem_map.mp h1
    have : de.1 = e.1 := by rw [← heq]
    rw [this, ← ha]
    exact startOfDay_mod _
  · intro de hde pe hpe x hx
    rw [hcl] at hde
    obtain ⟨e, he, heq⟩ := List.mem_map.mp hde
    obtain ⟨_, h2⟩ := (mem_keyBuckets _ _ _).mp he
    have hde1 : de.1 = e.1 := by rw [← heq]
    have hde2 : de.2 = keyBuckets (fun a => a.pageUrl) e.2 := by rw [← heq]
    rw [hde2] at hpe
    obtain ⟨_, h4⟩ := (mem_keyBuckets _ _ _).mp hpe
    rw [h4] at hx
    obtain ⟨hx1, hx2⟩ := List.mem_filter.mp hx
    rw [h2] at hx1
    obtain ⟨_, hx3⟩ := List.mem_filter.mp hx1
    refine ⟨?_, by simpa using hx2⟩
    rw [hde1]
    simpa using hx3
  · intro x hx
    have hxS : x ∈ sortByEditDesc annots := (sortByEditDesc_perm annots).mem_iff.mpr hx
    set S := sortByEditDesc annots with hS
    set dayBucket := S.filter
      (fun a => decide (startOfDay a.lastEdited = startOfDay x.lastEdited)) with hdb
    have hde : (startOfDay x.lastEdited, dayBucket) ∈
        keyBuckets (fun a => startOfDay a.lastEdited) S := by
      apply (mem_keyBuckets _ _ _).mpr
      exact ⟨List.mem_map_of_mem _ hxS, rfl⟩
    have hxdb : x ∈ dayBucket := by
      rw [hdb]
      exact List.mem_filter.mpr ⟨hxS, by simp⟩
    refine ⟨keyBuckets (fun a => a.pageUrl) dayBucket, ?_, ?_⟩
    · rw [hcl]
      exact List.mem_map.mpr ⟨(startOfDay x.lastEdited, dayBucket), hde, rfl⟩
    · refine ⟨dayBucket.filter (fun a => decide (a.pageUrl = x.pageUrl)), ?_, ?_⟩
      · apply (mem_keyBuckets _ _ _).mpr
        exact ⟨List.mem_map_of_mem _ hxdb, rfl⟩
      · exact List.mem_filter.mpr ⟨hxdb, by simp⟩
  · intro de hde pe hpe
    rw [hcl] at hde
    obtain ⟨e, he, heq⟩ := List.mem_map.mp hde
    obtain ⟨_, h2⟩ := (mem_keyBuckets _ _ _).mp he
    have hde2 : de.2 = keyBuckets (fun a => a.pageUrl) e.2 := by rw [← heq]
    rw [hde2] at hpe
    obtain ⟨_, h4⟩ := (mem_keyBuckets _ _ _).mp hpe
    rw [h4, h2]
    exact List.Pairwise.sublist ((List.filter_sublist _).trans (List.filter_sublist _))
      (sortByEditDesc_pairwise annots)

/-- Membership of a conditionally applied filter stage. -/
theorem mem_ite_filter {α : Type} (c : Prop) [Decidable c] (q : α → Bool) (l : List α) (x : α) :
    x ∈ (if c then l.filter q else l) ↔ x ∈ l ∧ (c → q x) := by
  by_cases h : c <;> simp [h, List.mem_filter]

/-- A tag row name survives the exclusion-then-inclusion steps. -/
def tagSurvives (p : SearchParams) (name : String) : Prop :=
  (p.tagsExc ≠ [] → name ∉ p.tagsExc) ∧ (p.tagsInc ≠ [] → name ∈ p.tagsInc)

/-- The candidate predicate enforced by the tag stage. -/
def tagPred (store : StoreState) (p : SearchParams) (u : String) : Prop :=
  ∃ t ∈ store.tags, t.2 = u ∧ tagSurvives p t.1

/-- The candidate predicate enforced by the collection stage. -/
def collPred (store : StoreState) (p : SearchParams) (u : String) : Prop :=
  ∃ e ∈ store.listEntries, e.2 = u ∧ ∃ le ∈ store.lists, le.1 ∈ p.collections ∧ le.2 = e.1

/-- Membership of the bookmark stage output. -/
theorem mem_filterByBookmarks (store : StoreState) (urls : List String) (u : String) :
    u ∈ filterByBookmarks store urls ↔ u ∈ store.bookmarks ∧ u ∈ urls := by
  simp [filterByBookmarks, List.mem_filter]

/-- Membership of the tag stage output. -/
theorem mem_filterByTags (store : StoreState) (urls : List String) (p : SearchParams)
    (u : String) :
    u ∈ filterByTags store urls p ↔ u ∈ urls ∧ tagPred store p u := by
  rw [filterByTags]
  simp only [List.mem_filter, List.mem_map, decide_eq_true_eq, mem_ite_filter,
    tagPred, tagSurvives]
  constructor
  · rintro ⟨hu, t, ⟨⟨⟨ht, _⟩, hexc⟩, hinc⟩, htu⟩
    exact ⟨hu, t, ht, htu, hexc, hinc⟩
  · rintro ⟨hu, t, ht, htu, hexc, hinc⟩
    exact ⟨hu, t, ⟨⟨⟨ht, htu ▸ hu⟩, hexc⟩, hinc⟩, htu⟩

/-- Membership of the collection stage output. -/
theorem mem_filterByCollections (store : StoreState) (urls : List String) (p : SearchParams)
    (u : String) :
    u ∈ filterByCollections store urls p ↔ u ∈ urls ∧ collPred store p u := by
  rw [filterByCollections]
  simp only [List.mem_filter, List.mem_map, decide_eq_true_eq, collPred]
  constructor
  · rintro ⟨hu, e, ⟨⟨he, _⟩, le, ⟨hle, hlec⟩, hlee⟩, heu⟩
    exact ⟨hu, e, he, heu, le, hle, hlec, hlee⟩
  · rintro ⟨hu, e, he, heu, le, hle, hlec, hlee⟩
    exact ⟨hu, e, ⟨⟨he, heu ▸ hu⟩, le, ⟨hle, hlec⟩, hlee⟩, heu⟩

/-- Membership of the composed facet filter: the original membership
together with every triggered stage predicate. -/
theorem mem_filterResults (store : StoreState) (r : List String) (p : SearchParams)
    (u : String) :
    u ∈ filterResults store r p ↔
      u ∈ r ∧ (p.bookmarksOnly = true → u ∈ store.bookmarks)
        ∧ ((p.tagsInc ≠ [] ∨ p.tagsExc ≠ []) → tagPred store p u)
        ∧ (p.collections ≠ [] → collPred store p u) := by
  rw [filterResults]
  by_cases hb : p.bookmarksOnly <;>
    by_cases ht : p.tagsInc ≠ [] ∨ p.tagsExc ≠ [] <;>
    by_cases hc : p.collections = [] <;>
    simp [hb, ht, hc, mem_filterByBookmarks, mem_filterByTags, mem_filterByCollections] <;>
    tauto

/-- C8: when the tag facet is triggered, a candidate key survives
filterByTags exactly when it has at least one tag row surviving both steps,
where a row survives when (if `tagsExc` is non-empty) its name is not
excluded and (if `tagsInc` is non-empty) its name is included; in
particular, exclusion is applied before inclusion, so a key all of whose
tag names are excluded is dropped even when those names also appear in
`tagsInc`. -/
theorem filterByTags_spec (store : StoreState) (urls : List String) (p : SearchParams)
    (_htrig : p.tagsInc ≠ [] ∨ p.tagsExc ≠ []) :
    (∀ u, u ∈ filterByTags store urls p ↔
        u ∈ urls ∧ ∃ t ∈ store.tags, t.2 = u ∧
          (p.tagsExc ≠ [] → t.1 ∉ p.tagsExc) ∧ (p.tagsInc ≠ [] → t.1 ∈ p.tagsInc))
    ∧ (∀ u, p.tagsExc ≠ [] → (∀ t ∈ store.tags, t.2 = u → t.1 ∈ p.tagsExc) →
        u ∉ filterByTags store urls p) := by
  have hchar : ∀ u, u ∈ filterByTags store urls p ↔
      u ∈ urls ∧ ∃ t ∈ store.tags, t.2 = u ∧
        (p.tagsExc ≠ [] → t.1 ∉ p.tagsExc) ∧ (p.tagsInc ≠ [] → t.1 ∈ p.tagsInc) := by
    intro u
    simpa [tagPred, tagSurvives] using mem_filterByTags store urls p u
  refine ⟨hchar, ?_⟩
  intro u hexc hall hu
  obtain ⟨-, t, ht, htu, hsurv, -⟩ := (hchar u).mp hu
  exact hsurv hexc (hall t ht htu)

/-- Store and params of the C8 witness: the name t1 appears in both the
include and the exclude set. -/
def tagStoreW : StoreState :=
  { annots := [], bookmarks := [], tags := [("t1", "u1"), ("t2", "u2")],
    lists := [], listEntries := [] }

/-- Params of the C8 witness. -/
def tagParamsW : SearchParams := { tagsInc := ["t1"], tagsExc := ["t1"] }

/-- Witness for C8 at a concrete store: u1 carries only the tag t1, which
is both included and excluded, and u1 is dropped. -/
theorem filterByTags_spec_witness :
    (tagParamsW.tagsInc ≠ [] ∨ tagParamsW.tagsExc ≠ []) ∧
      "u1" ∉ filterByTags tagStoreW ["u1"] tagParamsW :=
  ⟨Or.inl (by decide),
    (filterByTags_spec tagStoreW ["u1"] tagParamsW (Or.inl (by decide))).2 "u1"
      (by decide) (by decide)⟩

/-- C9: the composed facet filter is idempotent on candidate sets, its
output is (as a set) the intersection of the individual outputs of each
triggered stage applied to the original candidate list, and it is the
identity when no stage is triggered. -/
theorem filterResults_facets (store : StoreState) (r : List String) (p : SearchParams) :
    (∀ u, u ∈ filterResults store (filterResults store r p) p ↔ u ∈ filterResults store r p)
    ∧ (∀ u, u ∈ filterResults store r p ↔
        u ∈ (if p.bookmarksOnly then filterByBookmarks store r else r)
          ∧ u ∈ (if p.tagsInc ≠ [] ∨ p.tagsExc ≠ [] then filterByTags store r p else r)
          ∧ u ∈ (if p.collections ≠ [] then filterByCollections store r p else r))
    ∧ (p.bookmarksOnly = false → p.tagsInc = [] → p.tagsExc = [] → p.collections = [] →
        filterResults store r p = r) := by
  refine ⟨?_, ?_, ?_⟩
  · intro u
    simp only [mem_filterResults]
    tauto
  · intro u
    rw [mem_filterResults]
    by_cases hb : p.bookmarksOnly <;>
      by_cases ht : p.tagsInc ≠ [] ∨ p.tagsExc ≠ [] <;>
      by_cases hc : p.collections = [] <;>
      simp [hb, ht, hc, mem_filterByBookmarks, mem_filterByTags, mem_filterByCollections] <;>
      tauto
  · intro h1 h2 h3 h4
    simp [filterResults, h1, h2, h3, h4]

/-- Witness for C9: with no facet triggered the filter is the identity on a
concrete candidate list. -/
theorem filterResults_facets_witness :
    filterResults tagStoreW ["x", "y"] {} = ["x", "y"] :=
  (filterResults_facets tagStoreW ["x", "y"] {}).2.2 rfl rfl rfl rfl

/-- `find?` and a pointwise-equal predicate agree. -/
theorem find?_congr_mem {α : Type} (l : List α) (p q : α → Bool)
    (h : ∀ x ∈ l, p x = q x) : l.find? p = l.find? q := by
  induction l with
  | nil => rfl
  | cons a l ih =>
    have ha := h a (List.mem_cons_self a l)
    by_cases hp : p a
    · rw [List.find?_cons_of_pos _ hp, List.find?_cons_of_pos _ (ha ▸ hp)]
    · rw [List.find?_cons_of_neg _ hp, List.find?_cons_of_neg _ (fun hq => hp (ha ▸ hq)),
        ih (fun x hx => h x (List.mem_cons_of_mem a hx))]

/-- `find?` through a filter is `find?` of the conjunction. -/
theorem find?_filter_eq {α : Type} (l : List α) (p q : α → Bool) :
    (l.filter q).find? p = l.find? (fun x => p x && q x) := by
  induction l with
  | nil => rfl
  | cons a l ih =>
    rw [List.filter_cons]
    by_cases hq : q a
    · rw [if_pos hq]
      by_cases hp : p a
      · rw [List.find?_cons_of_pos _ hp, List.find?_cons_of_pos _ (by simp [hp, hq])]
      · rw [List.find?_cons_of_neg _ hp, List.find?_cons_of_neg _ (by simp [hp]), ih]
    · rw [if_neg hq, ih, List.find?_cons_of_neg _ (by simp [hq])]

/-- `find?` by key over a key-tagged copy of a list. -/
theorem find?_map_pair {α κ : Type} [DecidableEq κ] (f : α → κ) (l : List α) (u : κ) :
    (l.map (fun a => (f a, a))).find? (fun e => decide (e.1 = u))
      = (l.find? (fun a => decide (f a = u))).map (fun a => (f a, a)) := by
  induction l with
  | nil => rfl
  | cons a l ih =>
    by_cases h : f a = u
    · rw [List.map_cons, List.find?_cons_of_pos _ (by simpa using h),
        List.find?_cons_of_pos _ (by simpa using h)]
      rfl
    · rw [List.map_cons, List.find?_cons_of_neg _ (by simpa using h),
        List.find?_cons_of_neg _ (by simpa using h), ih]

/-- The url-keyed map fold of mapUrlsToAnnots, on records with
duplicate-free urls and an accumulator free of their keys, appends the
key-tagged records. -/
theorem annotMapFold_eq (l : List Annotation) (acc : List (String × Annotation))
    (hnd : (l.map (fun a => a.url)).Nodup)
    (hacc : ∀ a ∈ l, acc.any (fun e => decide (e.1 = a.url)) = false) :
    l.foldl (fun m a => mapSet m a.url a) acc = acc ++ l.map (fun a => (a.url, a)) := by
  induction l generalizing acc with
  | nil => simp
  | cons a l ih =>
    rw [List.map_cons, List.nodup_cons] at hnd
    rw [List.foldl_cons, mapSet, if_neg (by simp [hacc a (List.mem_cons_self a l)])]
    have hacc2 : ∀ b ∈ l, (acc ++ [(a.url, a)]).any (fun e => decide (e.1 = b.url)) = false := by
      intro b hb
      rw [List.any_append]
      have h1 := hacc b (List.mem_cons_of_mem a hb)
      have h2 : a.url ≠ b.url := fun hc => hnd.1 (hc ▸ List.mem_map_of_mem _ hb)
      simp [h1, h2]
    rw [ih (acc ++ [(a.url, a)]) hnd.2 hacc2, List.append_assoc]
    rfl

/-- Resolution of one key through the map built by mapUrlsToAnnots: the
first store record bearing that key, provided store urls are unique and the
key was requested. -/
theorem mapUrlsToAnnots_resolve (store : StoreState) (urls : List String)
    (hnd : (store.annots.map (fun a => a.url)).Nodup) (u : String) (hu : u ∈ urls) :
    ((store.annots.filter (fun a => decide (a.url ∈ urls))).foldl
        (fun m a => mapSet m a.url a) []).find? (fun e => decide (e.1 = u))
      = (store.annots.find? (fun a => decide (a.url = u))).map (fun a => (a.url, a)) := by
  have hndf : ((store.annots.filter (fun a => decide (a.url ∈ urls))).map
      (fun a => a.url)).Nodup :=
    List.Nodup.sublist (List.Sublist.map _ (List.filter_sublist _)) hnd
  rw [annotMapFold_eq _ [] hndf (fun a _ => rfl), List.nil_append, find?_map_pair,
    find?_filter_eq]
  have hcong : store.annots.find?
      (fun x => decide (x.url = u) && decide (x.url ∈ urls))
      = store.annots.find? (fun a => decide (a.url = u)) := by
    apply find?_congr_mem
    intro x _
    by_cases h : x.url = u
    · simp [h, hu]
    · simp [h]
  rw [hcong]

/-- C7: mapUrlsToAnnots output has exactly the input length; when store
urls are unique (they are primary keys), the i-th output entry is the
record resolved for the i-th input key, and a key resolving to no record
yields a `none` hole at its position instead of an error. Duplicate input
keys each receive their own copy of the resolved record. -/
theorem mapUrlsToAnnots_spec (store : StoreState) (urls : List String)
    (hnd : (store.annots.map (fun a => a.url)).Nodup) :
    (mapUrlsToAnnots store urls).length = urls.length
    ∧ ∀ i, i < urls.length →
        (mapUrlsToAnnots store urls).getD i none
          = store.annots.find? (fun a => decide (a.url = urls.getD i "")) := by
  constructor
  · rw [mapUrlsToAnnots]
    exact List.length_map _ _
  · intro i hi
    rw [mapUrlsToAnnots]
    have hlen : i < (urls.map (fun url =>
        (((store.annots.filter (fun a => decide (a.url ∈ urls))).foldl
          (fun m a => mapSet m a.url a) []).find?
            (fun e => decide (e.1 = url))).map (fun e => e.2))).length := by
      rw [List.length_map]
      exact hi
    rw [List.getD_eq_getElem _ _ hlen, List.getElem_map, List.getD_eq_getElem _ _ hi,
      mapUrlsToAnnots_resolve store urls hnd _ (List.getElem_mem hi)]
    rw [Option.map_map]
    cases store.annots.find? (fun a => decide (a.url = urls[i])) <;> rfl

/-- First annotation of the shared demo store. -/
def annotW1 : Annotation :=
  { url := "u1", pageUrl := "p", lastEdited := 5, bodyTerms := ["alpha"], commentTerms := [] }

/-- Second annotation of the shared demo store. -/
def annotW2 : Annotation :=
  { url := "u2", pageUrl := "p", lastEdited := 9, bodyTerms := [], commentTerms := ["beta"] }

/-- A small demo store with two annotations on one page. -/
def storeW : StoreState :=
  { annots := [annotW1, annotW2], bookmarks := [], tags := [], lists := [], listEntries := [] }

/-- Witness for C7: on the demo store, a three-key request (one key
unresolvable) returns three entries and a hole in the middle. -/
theorem mapUrlsToAnnots_spec_witness :
    (storeW.annots.map (fun a => a.url)).Nodup
    ∧ (mapUrlsToAnnots storeW ["u2", "zz", "u1"]).length = 3
    ∧ (mapUrlsToAnnots storeW ["u2", "zz", "u1"]).getD 1 none = none :=
  ⟨by decide,
    ((mapUrlsToAnnots_spec storeW ["u2", "zz", "u1"] (by decide)).1).trans rfl,
    ((mapUrlsToAnnots_spec storeW ["u2", "zz", "u1"] (by decide)).2 1 (by decide)).trans rfl⟩

/-- One unfolding of the do-while loop when the url resolves. -/
theorem byPageLoop_succ_some (store : StoreState) (p : SearchParams) (now innerLimit : Nat)
    (fuel : Nat) (acc : List String) (coll : List Annotation)
    (hcoll : listWithUrl store p now = some coll) :
    byPageLoop store p now innerLimit (fuel + 1) acc =
      (if decide (innerLimit ≤ ((coll.take innerLimit).map (fun a => a.url)).length) = true
       then byPageLoop store p now innerLimit fuel
          (acc ++ filterResults store ((coll.take innerLimit).map (fun a => a.url)) p)
       else some (Except.ok
          (acc ++ filterResults store ((coll.take innerLimit).map (fun a => a.url)) p))) := by
  rw [byPageLoop, hcoll]

/-- One unfolding of the do-while loop when the url is missing. -/
theorem byPageLoop_succ_none (store : StoreState) (p : SearchParams) (now innerLimit : Nat)
    (fuel : Nat) (acc : List String) (hcoll : listWithUrl store p now = none) :
    byPageLoop store p now innerLimit (fuel + 1) acc = some (Except.error urlError) := by
  rw [byPageLoop, hcoll]

/-- When the raw page batch fills the inner limit, the do-while loop of
listAnnotsByPage re-fetches the identical batch forever: the loop never
returns, whatever the fuel. -/
theorem byPageLoop_none_of_ge (store : StoreState) (p : SearchParams) (now innerLimit : Nat)
    (coll : List Annotation) (hcoll : listWithUrl store p now = some coll)
    (hge : innerLimit ≤ coll.length) :
    ∀ fuel acc, byPageLoop store p now innerLimit fuel acc = none := by
  intro fuel
  induction fuel with
  | zero => intro acc; rfl
  | succ fuel ih =>
    intro acc
    have hlen : ((coll.take innerLimit).map (fun a => a.url)).length = innerLimit := by
      rw [List.length_map, List.length_take]
      omega
    rw [byPageLoop_succ_some store p now innerLimit fuel acc coll hcoll,
      if_pos (decide_eq_true (le_of_eq hlen.symm))]
    exact ih _

/-- A successful run of the do-while loop of listAnnotsByPage performs
exactly one iteration: the raw batch is short of the inner limit and the
output appends its filtered keys to the accumulator. -/
theorem byPageLoop_ok (store : StoreState) (p : SearchParams) (now innerLimit : Nat)
    (fuel : Nat) (acc out : List String)
    (h : byPageLoop store p now innerLimit fuel acc = some (Except.ok out)) :
    ∃ coll, listWithUrl store p now = some coll
      ∧ ((coll.take innerLimit).map (fun a => a.url)).length < innerLimit
      ∧ out = acc ++ filterResults store ((coll.take innerLimit).map (fun a => a.url)) p := by
  induction fuel generalizing acc with
  | zero => exact absurd h (by rw [byPageLoop]; exact fun hc => Option.noConfusion hc)
  | succ fuel ih =>
    cases hcoll : listWithUrl store p now with
    | none =>
      rw [byPageLoop_succ_none store p now innerLimit fuel acc hcoll] at h
      exact absurd (Option.some.inj h) (fun hc => Except.noConfusion hc)
    | some coll =>
      rw [byPageLoop_succ_some store p now innerLimit fuel acc coll hcoll] at h
      by_cases hge : innerLimit ≤ ((coll.take innerLimit).map (fun a => a.url)).length
      · have hge2 : innerLimit ≤ coll.length := by
          rw [List.length_map, List.length_take] at hge
          omega
        rw [if_pos (decide_eq_true hge)] at h
        rw [byPageLoop_none_of_ge store p now innerLimit coll hcoll hge2 fuel _] at h
        exact absurd h (fun hc => Option.noConfusion hc)
      · rw [if_neg (by simpa using hge)] at h
        refine ⟨coll, rfl, by omega, ?_⟩
        exact (Except.ok.inj (Option.some.inj h)).symm

/-- listAnnotsByPage returns `none` whenever its do-while loop does. -/
theorem listAnnotsByPage_eq_none (fuel : Nat) (store : StoreState) (p : SearchParams)
    (now m : Nat) (h : byPageLoop store p now (p.limit.getD 10 * m) fuel [] = none) :
    listAnnotsByPage fuel store p now m = none := by
  rw [listAnnotsByPage]
  simp only [h]

/-- Params of the C1 failing input: page url supplied, limit 1, default
inner multiplier 2. -/
def pageParamsC1 : SearchParams := { url := some "p", limit := some 1, skip := some 0 }

/-- C1: the spec claims the do-while loop of listAnnotsByPage always
terminates thanks to a strictly increasing internal skip offset, in
particular when the store holds at least limit times the inner multiplier
matching annotations. The loop has no skip or offset at all: on a store
with 2 annotations of the requested page and an inner limit of
limit * multiplier = 2, the same full batch is fetched forever and the
function diverges, returning fuel exhaustion at every fuel. -/
theorem listAnnotsByPage_nontermination :
    ∀ fuel, listAnnotsByPage fuel storeW pageParamsC1 0 2 = none := by
  intro fuel
  apply listAnnotsByPage_eq_none
  exact byPageLoop_none_of_ge storeW pageParamsC1 0 _ [annotW1, annotW2] rfl (by decide)
    fuel []

/-- Store of the C2 counterexample: one single annotation on the page. -/
def storeC2 : StoreState :=
  { annots := [annotW1], bookmarks := [], tags := [], lists := [], listEntries := [] }

/-- Params of the C2 counterexample: limit 1, skip 1. -/
def pageParamsC2 : SearchParams := { url := some "p", limit := some 1, skip := some 1 }

/-- C2 counterexample: with limit 1 and skip 1 over a store whose page has
exactly one filtered match, the claim demands the returned sequence start
at the 1st (second) filtered match, i.e. be empty; the code ignores the
skip because the accumulated list is not longer than the limit and returns
the 0th match. -/
theorem listAnnotsByPage_skip_counterexample :
    listAnnotsByPage 1 storeC2 pageParamsC2 0 2 = some (Except.ok [some annotW1])
    ∧ listAnnotsByPage 1 storeC2 pageParamsC2 0 2 ≠
        some (Except.ok (mapUrlsToAnnots storeC2
          (jsSlice (filterResults storeC2 [annotW1.url] pageParamsC2) 1 2))) := by
  constructor
  · rfl
  · decide

/-- C2 as amended: when the store holds fewer page matches than the inner
limit (limit times multiplier), listAnnotsByPage terminates after a single
loop iteration for every positive fuel and returns at most limit
annotations; the skip/limit slice over the accumulated filtered keys is
applied only when more than limit keys accumulated, and otherwise the whole
accumulated list is returned from its 0th element, ignoring skip. -/
theorem listAnnotsByPage_slice (store : StoreState) (p : SearchParams) (now m fuel : Nat)
    (coll : List Annotation) (hcoll : listWithUrl store p now = some coll)
    (hlt : coll.length < p.limit.getD 10 * m) :
    ∃ res, listAnnotsByPage (fuel + 1) store p now m = some (Except.ok res)
      ∧ res.length ≤ p.limit.getD 10
      ∧ res = mapUrlsToAnnots store
          (if p.limit.getD 10 < (filterResults store (coll.map (fun a => a.url)) p).length
           then jsSlice (filterResults store (coll.map (fun a => a.url)) p)
              (p.skip.getD 0) (p.skip.getD 0 + p.limit.getD 10)
           else filterResults store (coll.map (fun a => a.url)) p) := by
  have htake : coll.take (p.limit.getD 10 * m) = coll :=
    List.take_of_length_le (le_of_lt hlt)
  have hloop : byPageLoop store p now (p.limit.getD 10 * m) (fuel + 1) []
      = some (Except.ok (filterResults store (coll.map (fun a => a.url)) p)) := by
    rw [byPageLoop_succ_some store p now (p.limit.getD 10 * m) fuel [] coll hcoll,
      if_neg (by simp [htake]; omega), htake]
    rw [List.nil_append]
  rw [listAnnotsByPage]
  simp only [hloop]
  exact ⟨ _, rfl, by
    by_cases hc : p.limit.getD 10 <
        (filterResults store (coll.map (fun a => a.url)) p).length
    · rw [if_pos hc, mapUrlsToAnnots, List.length_map, jsSlice, List.length_take]
      omega
    · rw [if_neg hc, mapUrlsToAnnots, List.length_map]
      omega, rfl⟩

/-- Witness for the amended C2 at the counterexample input: the single
matching annotation is short of the inner limit and the call succeeds. -/
theorem listAnnotsByPage_slice_witness :
    (listWithUrl storeC2 pageParamsC2 0 = some [annotW1]
      ∧ ([annotW1] : List Annotation).length < pageParamsC2.limit.getD 10 * 2)
    ∧ ∃ res, listAnnotsByPage 1 storeC2 pageParamsC2 0 2 = some (Except.ok res) :=
  ⟨⟨rfl, by decide⟩,
    match listAnnotsByPage_slice storeC2 pageParamsC2 0 2 0 [annotW1] rfl (by decide) with
    | ⟨res, hres, _, _⟩ => ⟨res, hres⟩⟩

/-- The composed facet filter maps an empty candidate list to itself. -/
theorem filterResults_nil (store : StoreState) (p : SearchParams) :
    filterResults store [] p = [] := by
  rw [filterResults]
  have h1 : (if p.bookmarksOnly then filterByBookmarks store [] else []) = [] := by
    by_cases h : p.bookmarksOnly <;> simp [h, filterByBookmarks]
  rw [h1]
  have h2 : (if p.tagsInc ≠ [] ∨ p.tagsExc ≠ [] then filterByTags store [] p else []) = [] := by
    by_cases h : p.tagsInc ≠ [] ∨ p.tagsExc ≠ [] <;> simp [h, filterByTags]
  rw [h2]
  by_cases h : p.collections ≠ [] <;> simp [h, filterByCollections]

/-- One loop entry of the pagination over an empty key list returns the
empty page map at once. -/
theorem paginateLoop_nil (store : StoreState) (p : SearchParams) (ips fuel skip0 : Nat) :
    paginateLoop store [] p ips (fuel + 1) skip0 [] [] = some (Except.ok []) := by
  rw [paginateLoop]
  by_cases h : ltLimit p ([] : PageMap).length = true
  · rw [if_pos h]
    simp [jsSlice]
  · rw [if_neg h]

/-- Pagination over an empty key list returns the empty page map for any
positive fuel. -/
theorem paginateAnnotsResults_nil (fuel : Nat) (store : StoreState) (p : SearchParams) :
    paginateAnnotsResults (fuel + 1) store [] p = some (Except.ok []) := by
  rw [paginateAnnotsResults]
  exact paginateLoop_nil store p _ fuel 0

/-- C10: with an empty termsInc list the per-term map is empty, so the
final reduce (with no initial value) throws the JavaScript TypeError, for
every field toggle combination; searchAnnots surfaces the same error
instead of matching everything or returning an empty result. -/
theorem lookupTerms_empty_terms (store : StoreState) (p : SearchParams) (now : Nat)
    (h : p.termsInc = []) :
    lookupTerms store p now = Except.error reduceError
    ∧ ∀ fuel, searchAnnots fuel store p now = some (Except.error reduceError) := by
  have h1 : lookupTerms store p now = Except.error reduceError := by
    rw [lookupTerms, h]
    rfl
  refine ⟨h1, fun fuel => ?_⟩
  rw [searchAnnots, h1]

/-- Witness for C10 at a concrete store and params. -/
theorem lookupTerms_empty_terms_witness :
    ({ termsInc := [] } : SearchParams).termsInc = []
    ∧ lookupTerms storeW { termsInc := [] } 0 = Except.error reduceError
    ∧ searchAnnots 3 storeW { termsInc := [] } 0 = some (Except.error reduceError) :=
  ⟨rfl, (lookupTerms_empty_terms storeW { termsInc := [] } 0 rfl).1,
    (lookupTerms_empty_terms storeW { termsInc := [] } 0 rfl).2 3⟩

/-- Params of the C3 counterexample: a term that does occur in the store,
with both text fields disabled. -/
def termParamsC3 : SearchParams :=
  { termsInc := ["alpha"], includeHighlights := false, includeNotes := false,
    limit := some 1, skip := some 0 }

/-- C3 counterexample: with non-empty terms and no enabled fields the code
does not fail: lookupTerms returns the empty key set and searchAnnots the
empty page map, on a store that does contain an annotation bearing the
term. -/
theorem lookupTerms_no_fields_counterexample :
    lookupTerms storeW termParamsC3 0 = Except.ok []
    ∧ searchAnnots 1 storeW termParamsC3 0 = some (Except.ok []) := by
  exact ⟨rfl, rfl⟩

/-- The per-term intersection fold keeps exactly the keys present in the
seed and in every following set. -/
theorem mem_foldl_inter (l : List (List String)) (init : List String) (u : String) :
    u ∈ l.foldl (fun a b => a.filter (fun x => decide (x ∈ b))) init ↔
      u ∈ init ∧ ∀ b ∈ l, u ∈ b := by
  induction l generalizing init with
  | nil => simp
  | cons b l ih =>
    simp only [List.foldl_cons, ih, List.mem_filter, decide_eq_true_eq, List.mem_cons]
    constructor
    · rintro ⟨⟨h1, h2⟩, h3⟩
      refine ⟨h1, ?_⟩
      intro c hc
      rcases hc with rfl | hc
      · exact h2
      · exact h3 c hc
    · rintro ⟨h1, h2⟩
      exact ⟨⟨h1, h2 b (Or.inl rfl)⟩, fun c hc => h2 c (Or.inr hc)⟩

/-- C3 as amended: with non-empty terms and both text fields disabled, the
enabled field list is empty, every per-term union is empty, and the term
search returns the empty key set with no error; searchAnnots then returns
the empty page map. -/
theorem lookupTerms_no_fields (store : StoreState) (p : SearchParams) (now : Nat)
    (hH : p.includeHighlights = false) (hN : p.includeNotes = false)
    (hT : p.termsInc ≠ []) :
    lookupTerms store p now = Except.ok []
    ∧ ∀ fuel, searchAnnots (fuel + 1) store p now = some (Except.ok []) := by
  have hf : enabledFields p = [] := by simp [enabledFields, hH, hN]
  have hu : ∀ t, termUnion store p now t = [] := by
    intro t
    rw [termUnion, hf]
    rfl
  have hmap : (jsDedup p.termsInc).map (termUnion store p now)
      = (jsDedup p.termsInc).map (fun _ => []) :=
    List.map_congr_left (fun t _ => hu t)
  have h1 : lookupTerms store p now = Except.ok [] := by
    rw [lookupTerms, hmap]
    obtain ⟨t0, ts, ht⟩ := List.exists_cons_of_ne_nil hT
    have ht0 : t0 ∈ jsDedup p.termsInc := by
      rw [mem_jsDedup, ht]
      exact List.mem_cons_self t0 ts
    cases hdd : jsDedup p.termsInc with
    | nil => rw [hdd] at ht0; cases ht0
    | cons d ds =>
      rw [List.map_cons, jsReduce]
      have : ∀ (l : List (List String)),
          l.foldl (fun a b => a.filter (fun x => decide (x ∈ b))) [] = [] := by
        intro l
        induction l with
        | nil => rfl
        | cons b l ih => simpa using ih
      exact congrArg Except.ok (this _)
  refine ⟨h1, fun fuel => ?_⟩
  rw [searchAnnots, h1]
  simp only [filterResults_nil]
  exact paginateAnnotsResults_nil fuel store p

/-- Witness for the amended C3 at the counterexample input. -/
theorem lookupTerms_no_fields_witness :
    (termParamsC3.includeHighlights = false ∧ termParamsC3.includeNotes = false
      ∧ termParamsC3.termsInc ≠ [])
    ∧ lookupTerms storeW termParamsC3 0 = Except.ok []
    ∧ searchAnnots 1 storeW termParamsC3 0 = some (Except.ok []) :=
  ⟨⟨rfl, rfl, by decide⟩,
    (lookupTerms_no_fields storeW termParamsC3 0 rfl rfl (by decide)).1,
    (lookupTerms_no_fields storeW termParamsC3 0 rfl rfl (by decide)).2 0⟩

/-- Membership in the optional edit-time window of the term queries:
vacuous when neither bound is truthy, else the inclusive
`[startDate || 0, endDate || Date.now()]` window. -/
def inDateWindow (p : SearchParams) (now : Nat) (a : Annotation) : Prop :=
  (optTruthy p.startDate || optTruthy p.endDate) = true →
    jsOr p.startDate 0 ≤ a.lastEdited ∧ a.lastEdited ≤ jsOr p.endDate now

/-- Membership of one equality lookup of a term against one field. -/
theorem mem_queryTermsField (store : StoreState) (field : TermField) (term : String)
    (p : SearchParams) (now : Nat) (u : String) :
    u ∈ queryTermsField store field term p now ↔
      ∃ a ∈ store.annots, a.url = u ∧ term ∈ fieldTerms field a ∧ inDateWindow p now a := by
  rw [queryTermsField]
  by_cases h : (optTruthy p.startDate || optTruthy p.endDate) = true
  · rw [if_pos h]
    simp only [List.mem_map, List.mem_filter, decide_eq_true_eq]
    constructor
    · rintro ⟨a, ⟨⟨ha, hm⟩, hw⟩, rfl⟩
      exact ⟨a, ha, rfl, hm, fun _ => hw⟩
    · rintro ⟨a, ha, rfl, hm, hw⟩
      exact ⟨a, ⟨⟨ha, hm⟩, hw h⟩, rfl⟩
  · rw [if_neg h]
    simp only [List.mem_map, List.mem_filter, decide_eq_true_eq]
    constructor
    · rintro ⟨a, ⟨ha, hm⟩, rfl⟩
      exact ⟨a, ha, rfl, hm, fun hc => absurd hc h⟩
    · rintro ⟨a, ha, rfl, hm, _⟩
      exact ⟨a, ⟨ha, hm⟩, rfl⟩

/-- Membership of the deduplicated per-term union across enabled fields. -/
theorem mem_termUnion (store : StoreState) (p : SearchParams) (now : Nat) (term u : String) :
    u ∈ termUnion store p now term ↔
      ∃ a ∈ store.annots, a.url = u ∧ inDateWindow p now a
        ∧ ∃ f ∈ enabledFields p, term ∈ fieldTerms f a := by
  rw [termUnion, mem_jsDedup]
  simp only [List.mem_flatten, List.mem_map]
  constructor
  · rintro ⟨l, ⟨f, hf, rfl⟩, hul⟩
    obtain ⟨a, ha, rfl, hm, hw⟩ := (mem_queryTermsField store f term p now u).mp hul
    exact ⟨a, ha, rfl, hw, f, hf, hm⟩
  · rintro ⟨a, ha, rfl, hw, f, hf, hm⟩
    exact ⟨queryTermsField store f term p now, ⟨f, hf, rfl⟩,
      (mem_queryTermsField store f term p now a.url).mpr ⟨a, ha, rfl, hm, hw⟩⟩

/-- With non-empty terms the reduce succeeds and the result is the
intersection of the per-term unions over the distinct terms. -/
theorem lookupTerms_mem (store : StoreState) (p : SearchParams) (now : Nat)
    (hne : p.termsInc ≠ []) :
    ∃ res, lookupTerms store p now = Except.ok res ∧
      ∀ u, u ∈ res ↔ ∀ t ∈ p.termsInc, u ∈ termUnion store p now t := by
  cases hdd : jsDedup p.termsInc with
  | nil =>
    obtain ⟨t0, ts, ht⟩ := List.exists_cons_of_ne_nil hne
    have ht0 : t0 ∈ jsDedup p.termsInc := by
      rw [mem_jsDedup, ht]
      exact List.mem_cons_self t0 ts
    rw [hdd] at ht0
    cases ht0
  | cons d ds =>
    rw [lookupTerms, hdd, List.map_cons]
    refine ⟨_, rfl, ?_⟩
    intro u
    rw [mem_foldl_inter]
    constructor
    · rintro ⟨h1, h2⟩ t ht
      have htd : t ∈ jsDedup p.termsInc := (mem_jsDedup _ _).mpr ht
      rw [hdd] at htd
      rcases List.mem_cons.mp htd with rfl | hts
      · exact h1
      · exact h2 _ (List.mem_map_of_mem _ hts)
    · intro h
      have hmemd : d ∈ p.termsInc := by
        rw [← mem_jsDedup, hdd]
        exact List.mem_cons_self d ds
      refine ⟨h d hmemd, ?_⟩
      intro b hb
      obtain ⟨t, hts, rfl⟩ := List.mem_map.mp hb
      have hmemt : t ∈ p.termsInc := by
        rw [← mem_jsDedup, hdd]
        exact List.mem_cons_of_mem d hts
      exact h t hmemt

/-- C4: with non-empty terms and unique store keys, the term search
succeeds and returns exactly the keys of the annotations that lie in the
date window and whose enabled fields collectively contain every required
term — terms split across different enabled fields of the same annotation
still match, and the result is order-independent (a membership
characterisation). -/
theorem lookupTerms_intersection (store : StoreState) (p : SearchParams) (now : Nat)
    (hnd : (store.annots.map (fun a => a.url)).Nodup) (hne : p.termsInc ≠ []) :
    ∃ res, lookupTerms store p now = Except.ok res ∧
      ∀ u, u ∈ res ↔
        ∃ a ∈ store.annots, a.url = u ∧ inDateWindow p now a
          ∧ ∀ t ∈ p.termsInc, ∃ f ∈ enabledFields p, t ∈ fieldTerms f a := by
  obtain ⟨res, hres, hmem⟩ := lookupTerms_mem store p now hne
  refine ⟨res, hres, fun u => (hmem u).trans ?_⟩
  constructor
  · intro h
    obtain ⟨t0, ts, hT⟩ := List.exists_cons_of_ne_nil hne
    have ht0 : t0 ∈ p.termsInc := by
      rw [hT]
      exact List.mem_cons_self t0 ts
    obtain ⟨a0, ha0, hu0, hw0, _⟩ := (mem_termUnion store p now t0 u).mp (h t0 ht0)
    refine ⟨a0, ha0, hu0, hw0, ?_⟩
    intro t ht
    obtain ⟨a, ha, hu, _, f, hf, hm⟩ := (mem_termUnion store p now t u).mp (h t ht)
    have heq : a = a0 :=
      List.inj_on_of_nodup_map hnd ha ha0 (hu.trans hu0.symm)
    rw [← heq]
    exact ⟨f, hf, hm⟩
  · rintro ⟨a, ha, rfl, hw, hall⟩ t ht
    obtain ⟨f, hf, hm⟩ := hall t ht
    exact (mem_termUnion store p now t a.url).mpr ⟨a, ha, rfl, hw, f, hf, hm⟩

/-- Annotation for the C4 witness: both terms in the highlight body. -/
def annotC4 : Annotation :=
  { url := "w1", pageUrl := "p", lastEdited := 5,
    bodyTerms := ["alpha", "beta"], commentTerms := [] }

/-- Annotation for the C4 witness: terms split across highlight and note
fields. -/
def annotC4b : Annotation :=
  { url := "w2", pageUrl := "p", lastEdited := 6,
    bodyTerms := ["alpha"], commentTerms := ["beta"] }

/-- Store of the C4 witness. -/
def storeC4 : StoreState :=
  { annots := [annotC4, annotC4b], bookmarks := [], tags := [], lists := [],
    listEntries := [] }

/-- Params of the C4 witness: both fields enabled, two required terms. -/
def termParamsC4 : SearchParams :=
  { termsInc := ["alpha", "beta"], includeHighlights := true, includeNotes := true }

/-- Witness for C4: on the concrete store both annotations match — w2 only
because its terms are split across the two enabled fields — and the keys
returned are exactly these. -/
theorem lookupTerms_intersection_witness :
    ((storeC4.annots.map (fun a => a.url)).Nodup ∧ termParamsC4.termsInc ≠ [])
    ∧ ∃ res, lookupTerms storeC4 termParamsC4 0 = Except.ok res ∧
        ∀ u, u ∈ res ↔
          ∃ a ∈ storeC4.annots, a.url = u ∧ inDateWindow termParamsC4 0 a
            ∧ ∀ t ∈ termParamsC4.termsInc, ∃ f ∈ enabledFields termParamsC4,
                t ∈ fieldTerms f a :=
  ⟨⟨by decide, by decide⟩,
    lookupTerms_intersection storeC4 termParamsC4 0 (by decide) (by decide)⟩

/-- One unfolding of the listAnnotsByDay loop. -/
theorem byDayLoop_succ_eq (store : StoreState) (p : SearchParams) (hardLowerLimit : Nat)
    (fuel dateCursor : Nat) (results : DayMap) (queries : List (Nat × Nat)) :
    byDayLoop store p hardLowerLimit (fuel + 1) dateCursor results queries =
      if (ltLimit p results.length && decide (hardLowerLimit < dateCursor)) = true then
        byDayLoop store p hardLowerLimit fuel (dayCursorStep p hardLowerLimit dateCursor)
          (mergeResults results
            (clusterAnnotsByPage (dayWindowAnnots store p hardLowerLimit dateCursor)))
          (queries ++ [(dayCursorStep p hardLowerLimit dateCursor, dateCursor)])
      else some (results, queries) := by
  rw [byDayLoop]

/-- ltLimit with a present limit is the plain comparison. -/
theorem ltLimit_some (p : SearchParams) (L n : Nat) (hL : p.limit = some L) :
    ltLimit p n = decide (n < L) := by
  rw [ltLimit, hL]

/-- Every cursor produced by dayCursorStep inside the loop stays at or
above the hard lower limit. -/
theorem dayCursorStep_ge (p : SearchParams) (hardLowerLimit dateCursor L : Nat)
    (hL : p.limit = some L) (hcur : hardLowerLimit < dateCursor) :
    hardLowerLimit ≤ dayCursorStep p hardLowerLimit dateCursor := by
  rw [dayCursorStep]
  by_cases hd : ltLimit p ((dateCursor - hardLowerLimit) / msPerDay) = true
  · rw [if_pos hd]
  · rw [if_neg hd, hL]
    rw [ltLimit_some p L _ hL, decide_eq_true_eq] at hd
    have h1 : L ≤ (dateCursor - hardLowerLimit) / msPerDay := by omega
    have h2 : L * msPerDay ≤ dateCursor - hardLowerLimit :=
      (Nat.le_div_iff_mul_le (by decide)).mp h1
    simp only [Option.getD_some]
    omega

/-- Every range query recorded by the listAnnotsByDay loop has its lower
endpoint at or above the hard lower limit, provided the queries recorded so
far do. -/
theorem byDayLoop_queries_bound (store : StoreState) (p : SearchParams)
    (hardLowerLimit L : Nat) (hL : p.limit = some L) :
    ∀ fuel dateCursor results queries m qs,
      (∀ q ∈ queries, hardLowerLimit ≤ q.1) →
      byDayLoop store p hardLowerLimit fuel dateCursor results queries = some (m, qs) →
      ∀ q ∈ qs, hardLowerLimit ≤ q.1 := by
  intro fuel
  induction fuel with
  | zero =>
    intro dateCursor results queries m qs hinv h
    exact absurd h (by rw [byDayLoop]; exact fun hc => Option.noConfusion hc)
  | succ fuel ih =>
    intro dateCursor results queries m qs hinv h
    rw [byDayLoop_succ_eq] at h
    by_cases hc : (ltLimit p results.length && decide (hardLowerLimit < dateCursor)) = true
    · rw [if_pos hc] at h
      have hcur : hardLowerLimit < dateCursor := by
        rcases Bool.and_eq_true_iff.mp hc with ⟨-, h2⟩
        simpa using h2
      refine ih _ _ _ _ _ ?_ h
      intro q hq
      rcases List.mem_append.mp hq with hq | hq
      · exact hinv q hq
      · rw [List.mem_singleton] at hq
        subst hq
        exact dayCursorStep_ge p hardLowerLimit dateCursor L hL hcur
    · rw [if_neg hc] at h
      obtain ⟨-, rfl⟩ := Prod.mk.injEq .. ▸ Option.some.inj h
      exact hinv

/-- The listAnnotsByDay loop terminates within span over limit-days fuel
(plus two): each non-final iteration moves the cursor back limit whole
days, and the final one clamps to the hard lower limit. -/
theorem byDayLoop_fuel (store : StoreState) (p : SearchParams) (hardLowerLimit L : Nat)
    (hL : p.limit = some L) (hL0 : 0 < L) :
    ∀ n dateCursor, (dateCursor - hardLowerLimit) / (L * msPerDay) ≤ n →
      ∀ results queries,
        (byDayLoop store p hardLowerLimit (n + 2) dateCursor results queries).isSome := by
  have hpos : 0 < L * msPerDay := Nat.mul_pos hL0 (by decide)
  intro n
  induction n with
  | zero =>
    intro dateCursor hspan results queries
    rw [byDayLoop_succ_eq]
    by_cases hc : (ltLimit p results.length && decide (hardLowerLimit < dateCursor)) = true
    · rw [if_pos hc]
      have hlt : dateCursor - hardLowerLimit < L * msPerDay := by
        have := (Nat.div_lt_iff_lt_mul hpos).mp (Nat.lt_succ_of_le hspan)
        simpa using this
      have hstep : ltLimit p ((dateCursor - hardLowerLimit) / msPerDay) = true := by
        rw [ltLimit_some p L _ hL]
        apply decide_eq_true
        exact (Nat.div_lt_iff_lt_mul (by decide)).mpr hlt
      rw [dayCursorStep, if_pos hstep, byDayLoop_succ_eq,
        if_neg (by simp [Bool.and_eq_true_iff])]
      rfl
    · rw [if_neg hc]
      rfl
  | succ n ih =>
    intro dateCursor hspan results queries
    rw [byDayLoop_succ_eq]
    by_cases hc : (ltLimit p results.length && decide (hardLowerLimit < dateCursor)) = true
    · rw [if_pos hc]
      by_cases hstep : ltLimit p ((dateCursor - hardLowerLimit) / msPerDay) = true
      · rw [dayCursorStep, if_pos hstep]
        exact ih hardLowerLimit (by simp) _ _
      · rw [dayCursorStep, if_neg hstep, hL]
        simp only [Option.getD_some]
        apply ih
        rw [ltLimit_some p L _ hL, decide_eq_true_eq] at hstep
        have h1 : L ≤ (dateCursor - hardLowerLimit) / msPerDay := by omega
        have h2 : L * msPerDay ≤ dateCursor - hardLowerLimit :=
          (Nat.le_div_iff_mul_le (by decide)).mp h1
        have h3 : dateCursor - L * msPerDay - hardLowerLimit
            = dateCursor - hardLowerLimit - L * msPerDay := by omega
        rw [h3]
        have h4 : dateCursor - hardLowerLimit < (n + 2) * (L * msPerDay) :=
          (Nat.div_lt_iff_lt_mul hpos).mp (Nat.lt_succ_of_le hspan)
        have hmul : (n + 2) * (L * msPerDay) = (n + 1) * (L * msPerDay) + L * msPerDay := by
          ring
        have h5 : dateCursor - hardLowerLimit - L * msPerDay < (n + 1) * (L * msPerDay) := by
          omega
        exact Nat.le_of_lt_succ ((Nat.div_lt_iff_lt_mul hpos).mpr h5)
    · rw [if_neg hc]
      rfl

/-- C5: listAnnotsByDay with a positive limit terminates within fuel
span / (limit days) + 2, where span is the distance from the initial
cursor down to the hard lower time bound (the later of startDate or the
2018-06-01 floor, and the installation time) — one loop entry per limit-day
stride plus the final clamped iteration and exit check — and every range
query it ever issues has its lower endpoint at or above that hard lower
bound. -/
theorem listAnnotsByDay_bounds (store : StoreState) (p : SearchParams)
    (now installTime L : Nat) (hL : p.limit = some L) (hL0 : 0 < L) :
    (∃ r, listAnnotsByDay
        ((initialDayCursor p now - calcHardLowerTimeBound p installTime) / (L * msPerDay) + 2)
        store p now installTime = some r)
    ∧ ∀ fuel r, listAnnotsByDay fuel store p now installTime = some r →
        ∀ q ∈ r.2, calcHardLowerTimeBound p installTime ≤ q.1 := by
  constructor
  · have h := byDayLoop_fuel store p (calcHardLowerTimeBound p installTime) L hL hL0
      ((initialDayCursor p now - calcHardLowerTimeBound p installTime) / (L * msPerDay))
      (initialDayCursor p now) (le_refl _) [] []
    rw [listAnnotsByDay]
    cases hloop : byDayLoop store p (calcHardLowerTimeBound p installTime)
        ((initialDayCursor p now - calcHardLowerTimeBound p installTime) / (L * msPerDay) + 2)
        (initialDayCursor p now) [] [] with
    | none => rw [hloop] at h; exact absurd h (by simp)
    | some r =>
      obtain ⟨results, queries⟩ := r
      exact ⟨_, rfl⟩
  · intro fuel r h
    rw [listAnnotsByDay] at h
    cases hloop : byDayLoop store p (calcHardLowerTimeBound p installTime) fuel
        (initialDayCursor p now) [] [] with
    | none =>
      rw [hloop] at h
      exact absurd h (fun hc => Option.noConfusion hc)
    | some pr =>
      obtain ⟨results, queries⟩ := pr
      rw [hloop] at h
      have hq : r.2 = queries := by
        rw [← Option.some.inj h]
      intro q hq2
      rw [hq] at hq2
      exact byDayLoop_queries_bound store p (calcHardLowerTimeBound p installTime) L hL
        fuel (initialDayCursor p now) [] [] results queries
        (fun q hq => absurd hq (List.not_mem_nil q)) hloop q hq2

/-- Params of the C5 witness: limit 1, a window from 1 ms past the epoch to
the end of day two. -/
def dayParamsW : SearchParams :=
  { limit := some 1, startDate := some 1, endDate := some (2 * msPerDay) }

/-- Witness for C5: the bounded fuel suffices at a concrete store, params,
clock and installation time. -/
theorem listAnnotsByDay_bounds_witness :
    (dayParamsW.limit = some 1 ∧ 0 < 1)
    ∧ (∃ r, listAnnotsByDay
        ((initialDayCursor dayParamsW 0 - calcHardLowerTimeBound dayParamsW msPerDay)
          / (1 * msPerDay) + 2) storeW dayParamsW 0 msPerDay = some r) :=
  ⟨⟨rfl, by decide⟩,
    (listAnnotsByDay_bounds storeW dayParamsW 0 msPerDay 1 rfl (by decide)).1⟩

/-- Witness for C1: at fuel 5 the call still returns fuel exhaustion. -/
theorem listAnnotsByPage_nontermination_witness :
    listAnnotsByPage 5 storeW pageParamsC1 0 2 = none :=
  listAnnotsByPage_nontermination 5

/-- Witness for C6: on a concrete two-annotation input the bucket totals
sum to two. -/
theorem clusterAnnotsByPage_invariants_witness :
    ((clusterAnnotsByPage [annotW1, annotW2]).map
      (fun de => (de.2.map (fun pe => pe.2.length)).sum)).sum = 2 :=
  ((clusterAnnotsByPage_invariants [annotW1, annotW2]).1).trans rfl

end Memex
